import Mathlib

/-!
# CCD RON / Gain pipeline — shallow embedding and verification

This file embeds the numerical core of the CCD characterization pipeline
(`build_superbias.py`, `calc_ron.py`, `calc_gain.py`, `calc.py`) and proves
properties about it.

Embedding conventions:

* A 2-D pixel array (numpy `ndarray` of floats) is a `List (List ℚ)` of rows.
  Rational numbers model the ideal real arithmetic that the floating-point
  code approximates; all arithmetic in the pipeline (sums, medians, variance
  ratios) is exact over ℚ.  The standard deviation itself (a square root)
  lives in ℝ.
* numpy slicing `a[y0:y1, x0:x1]` is modeled by `slice2`, including numpy's
  silent clamping of out-of-range slice ends.
* numpy elementwise subtraction of two 2-D arrays is modeled by `bsub`,
  including 2-D broadcasting; a non-broadcastable shape combination, which
  makes numpy raise `ValueError`, is modeled by `none`.  An `Option` result
  of an embedded function is `none` exactly when the Python code raises.
* The scalar division `count / var_shot` performed by `calc_gain` is a numpy
  float division, which yields `inf` / `-inf` / `nan` instead of raising
  when the denominator is zero; `FVal` and `npdivQ` model that behaviour
  (ℚ has no signed zero, so a `-0.0` denominator is modeled as `0`).
* `np.std(_, ddof=k)` squared equals the sum of squared deviations divided
  by `n - k`; `nvar` is that exact quantity on `n > k` samples, and the
  standard deviation is `Real.sqrt ∘ nvar`.  For `n ≤ k` numpy yields
  `nan`.  The ℚ arrays cannot carry IEEE special values, so the embedded
  functions make the paths on which numpy floats provably go non-finite
  explicit: `calc_gain` returns `nan` on an empty window median, a zero
  `count2` divisor, or fewer than two `std` samples (see its doc comment
  for the float traces), and `calc_ron_ieee` refines `calc_ron` — whose
  real-valued codomain cannot hold a nan — with the explicit nan case at
  fewer than two samples.  `nvar`'s own value on `n ≤ k` samples (ℚ's
  `0/0 = 0`) is never what a theorem below reports.
* `np.median` sorts the data and averages the two middle order statistics
  for even length; `medianQ` does the same via insertion sort.
  `medianQ [] = 0` while `np.median` of an empty slice is nan; the
  empty-window case is guarded explicitly in `calc_gain`, and the window
  hypotheses of the RON theorems keep the diagnostics on nonempty
  windows.
* File I/O (`fits.open`, `fits.writeto`, `print`) only moves arrays in and
  out of the process; the embedded functions take the loaded arrays
  directly, and writes/prints are dropped.  The `EXPTIME` header value read
  by `preprocess_light` is modeled as the `exptime` field of `Image`.
-/

set_option maxRecDepth 1000000

/-- A 2-D pixel array: a list of rows of rational pixel values. -/
abbrev Mat := List (List ℚ)

/-- Entry access `m[i][j]` with numpy-irrelevant default `0` out of range. -/
def getE (m : Mat) (i j : ℕ) : ℚ := (m.getD i []).getD j 0

/-- Number of rows (first component of the numpy shape). -/
def nrows (m : Mat) : ℕ := m.length

/-- Number of columns (second component of the numpy shape, read off the
first row as numpy does when building an array from nested lists). -/
def ncols (m : Mat) : ℕ := (m.headD []).length

/-- `m` is a well-formed `R × C` array: `R` rows, every row of length `C`. -/
def HasShape (m : Mat) (R C : ℕ) : Prop :=
  m.length = R ∧ ∀ r ∈ m, r.length = C

instance (m : Mat) (R C : ℕ) : Decidable (HasShape m R C) := by
  unfold HasShape; infer_instance

/-- A rectangular array: every row has the length of the first one. -/
def WFmat (m : Mat) : Prop := ∀ r ∈ m, r.length = ncols m

instance (m : Mat) : Decidable (WFmat m) := by
  unfold WFmat; infer_instance

/-- A rectangular region of interest `(x_begin, x_end, y_begin, y_end)`,
the order in which the Python code unpacks its `window` tuple. -/
structure Window where
  x0 : ℕ
  x1 : ℕ
  y0 : ℕ
  y1 : ℕ
deriving DecidableEq, Repr

/-- The window invariant relative to an `R × C` frame:
`0 ≤ x_begin < x_end ≤ C` and `0 ≤ y_begin < y_end ≤ R`
(the lower bounds are automatic for ℕ). -/
def WinOK (w : Window) (R C : ℕ) : Prop :=
  w.x0 < w.x1 ∧ w.x1 ≤ C ∧ w.y0 < w.y1 ∧ w.y1 ≤ R

instance (w : Window) (R C : ℕ) : Decidable (WinOK w R C) := by
  unfold WinOK; infer_instance

/-- numpy 1-D slice `r[a:b]` for `0 ≤ a ≤ b`: drop `a`, keep `b - a`
elements; out-of-range ends are silently clamped by `drop`/`take`. -/
def sliceRow (w : Window) (r : List ℚ) : List ℚ :=
  (r.drop w.x0).take (w.x1 - w.x0)

/-- numpy 2-D slice `m[y0:y1, x0:x1]`. -/
def slice2 (m : Mat) (w : Window) : Mat :=
  ((m.drop w.y0).take (w.y1 - w.y0)).map (sliceRow w)

/-- The window region of `m`, flattened to the sample list over which the
pipeline's statistics (`np.std`, `np.median`, `np.mean`) are taken. -/
def winFlat (m : Mat) (w : Window) : List ℚ := (slice2 m w).flatten

/-- `np.mean` of a flat sample list. -/
def meanQ (l : List ℚ) : ℚ := l.sum / l.length

/-- `np.std(l, ddof) ** 2`: the sum of squared deviations from the mean
divided by `n - ddof` (exact, so the square of the standard deviation). -/
def nvar (l : List ℚ) (ddof : ℕ) : ℚ :=
  (l.map (fun x => (x - meanQ l) ^ 2)).sum / ((l.length - ddof : ℕ) : ℚ)

/-- `np.median`: sort, take the middle element (odd length) or the average
of the two middle elements (even length). -/
def medianQ (l : List ℚ) : ℚ :=
  let s := l.insertionSort (· ≤ ·)
  let n := l.length
  if n % 2 = 1 then s.getD (n / 2) 0
  else (s.getD (n / 2 - 1) 0 + s.getD (n / 2) 0) / 2

/-- numpy 2-D broadcast compatibility of two shapes: along each axis the
sizes agree or one of them is `1`. -/
def bcompat (a b : Mat) : Bool :=
  (nrows a == nrows b || nrows a == 1 || nrows b == 1) &&
    (ncols a == ncols b || ncols a == 1 || ncols b == 1)

/-- Index into an axis of size `n` from a broadcast index `i`: a size-1 axis
is repeated, otherwise the index passes through. -/
def bidx (n i : ℕ) : ℕ := if n = 1 then 0 else i

/-- numpy elementwise subtraction `a - b` of 2-D arrays, with broadcasting;
`none` models the `ValueError` numpy raises on incompatible shapes. -/
def bsub (a b : Mat) : Option Mat :=
  if bcompat a b then
    some ((List.range (max (nrows a) (nrows b))).map (fun i =>
      (List.range (max (ncols a) (ncols b))).map (fun j =>
        getE a (bidx (nrows a) i) (bidx (ncols a) j) -
          getE b (bidx (nrows b) i) (bidx (ncols b) j))))
  else none

/-- Plain elementwise subtraction of two equal-shaped arrays (what `bsub`
computes once broadcasting is trivial). -/
def matSub (a b : Mat) : Mat := List.zipWith (List.zipWith (· - ·)) a b

/-- Elementwise multiplication of an array by a scalar (`m * c`). -/
def smulM (c : ℚ) (m : Mat) : Mat := m.map (List.map (· * c))

/-- Elementwise division of an array by a scalar (`m / c`).  ℚ's
`x / 0 = 0` is never observable through the embedded functions: the one
caller, `calc_gain`, maps its `count2 = 0` path to the nan that the float
division's `±inf`/nan entries provably produce, and the only other data it
takes from the quotient (a sliced length, a broadcast-compatibility check)
is value-independent. -/
def sdivM (m : Mat) (c : ℚ) : Mat := m.map (List.map (· / c))

/-- A numpy float-division result: a finite value or one of the IEEE
special values `inf`, `-inf`, `nan` that numpy produces (with a warning,
not an exception) when dividing by zero. -/
inductive FVal where
  | fin (q : ℚ)
  | inf
  | ninf
  | nan
deriving DecidableEq, Repr

/-- Whether a numpy float-division result is finite. -/
def FVal.isFinite : FVal → Bool
  | .fin _ => true
  | _ => false

/-- numpy scalar float division `a / b`: ordinary division for `b ≠ 0`,
and `nan` / `inf` / `-inf` (by the sign of `a`) for `b = 0`. -/
def npdivQ (a b : ℚ) : FVal :=
  if b = 0 then (if a = 0 then .nan else if 0 < a then .inf else .ninf)
  else .fin (a / b)

/-! ## Embedded source functions -/

/-- Embedding of `calc_ron` (`calc_ron.py`, identically `calc.py`): load the
two bias frames, subtract them elementwise, and return
`np.std(diff[window], ddof=1) / sqrt 2`.  The function performs no shape or
window validation of its own; `none` arises only from the numpy
subtraction.  The real codomain carries the exact value of the statistic;
it cannot express the nan that `np.std(_, ddof=1)` yields on fewer than
two samples — `calc_ron_ieee` below makes that case explicit, and
theorems about concrete RON values use it. -/
noncomputable def calc_ron (data1 data2 : Mat) (w : Window) : Option ℝ :=
  (bsub data1 data2).map (fun data_diff =>
    Real.sqrt (nvar (winFlat data_diff w) 1) / Real.sqrt 2)

/-- The `median` diagnostic printed by `calc_ron`:
`np.median(data_diff[window])`. -/
def ron_median (data1 data2 : Mat) (w : Window) : Option ℚ :=
  (bsub data1 data2).map (fun data_diff => medianQ (winFlat data_diff w))

/-- The `mean` diagnostic printed by `calc_ron`:
`np.mean(data_diff[window])`. -/
def ron_mean (data1 data2 : Mat) (w : Window) : Option ℚ :=
  (bsub data1 data2).map (fun data_diff => meanQ (winFlat data_diff w))

/-- A numpy float statistic: an exact real value, or the nan that a
degenerate sample produces. -/
inductive RVal where
  | fin (x : ℝ)
  | nan

/-- `calc_ron` with numpy's degenerate-sample behaviour made explicit: on
fewer than two window samples `np.std(_, ddof=1)` is nan (nan mean of an
empty slice, or `0.0/0.0` at one sample) and `nan / sqrt(2)` is nan, so
the function returns nan; otherwise every float in the pipeline is finite
and the value is the exact `sigma / sqrt 2` of `calc_ron`. -/
noncomputable def calc_ron_ieee (data1 data2 : Mat) (w : Window) :
    Option RVal :=
  (bsub data1 data2).map (fun data_diff =>
    if (winFlat data_diff w).length ≤ 1 then RVal.nan
    else RVal.fin (Real.sqrt (nvar (winFlat data_diff w) 1) / Real.sqrt 2))

/-- A loaded light frame: the pixel array together with the `EXPTIME`
header value that `preprocess_light` reads. -/
structure Image where
  data : Mat
  exptime : ℚ

/-- Embedding of `preprocess_light` (`calc_gain.py`): read `EXPTIME` from
the header and subtract the superbias from the pixel data, returning both. -/
def preprocess_light (img : Image) (superbias_data : Mat) : ℚ × Option Mat :=
  (img.exptime, bsub img.data superbias_data)

/-- Embedding of `calc_gain` (`calc_gain.py`; the `calc.py` copy computes
the same value).  Both light frames are bias-subtracted; `count1`, `count2`
are window medians, `count` their average; the scale-matched difference is
`data1 - (data2 / count2) * count1`; `sigma` is `np.std(diff[window],
ddof=1)`, entering only as `sigma ** 2`, which equals `nvar _ 1` exactly;
the returned gain is the numpy float division
`count / (sigma ** 2 / 2 - ron_adu ** 2)`.

The ℚ arrays cannot carry IEEE special values, so the paths on which the
float pipeline provably goes non-finite are detected and mapped to the
`nan` the program returns there:
* an empty window slice of either frame: its `np.median` is nan, which
  floods `diff` (every entry has a nan factor or summand) and `count`, so
  `sigma` and the gain are nan;
* `count2 = 0` (windows nonempty): every entry of `data2 / count2` is
  `+inf`, `-inf` or nan, hence every entry of `diff` is non-finite, and
  the deviations-from-mean of such a window always contain nan
  (`inf - inf`), so `sigma` and the gain are nan;
* fewer than 2 samples in the window of `diff`: `np.std(_, ddof=1)` is
  nan (nan mean of an empty slice, or `0.0/0.0` at one sample), so the
  gain is nan.
On every other input every intermediate float is finite and the exact
arithmetic below is the computation.  numpy's shape-compatibility check of
the elementwise subtraction — the only raising step, performed before any
statistic can become nan — is value-independent, so it stays first. -/
def calc_gain (img1 img2 : Image) (superbias_data : Mat) (ron_adu : ℚ)
    (w : Window) : Option FVal :=
  let p1 := preprocess_light img1 superbias_data
  let p2 := preprocess_light img2 superbias_data
  match p1.2, p2.2 with
  | some data1, some data2 =>
    let count1 := medianQ (winFlat data1 w)
    let count2 := medianQ (winFlat data2 w)
    let count := (count1 + count2) / 2
    match bsub data1 (smulM count1 (sdivM data2 count2)) with
    | some data_diff =>
      if winFlat data1 w = [] ∨ winFlat data2 w = [] ∨ count2 = 0 ∨
          (winFlat data_diff w).length ≤ 1 then some .nan
      else
        let sigmaSq := nvar (winFlat data_diff w) 1
        some (npdivQ count (sigmaSq / 2 - ron_adu ^ 2))
    | none => none
  | _, _ => none

/-- One astropy sigma-clipping iteration over a sample list (the per-pixel
stack of `sigma_clipped_stats(..., axis=0)`): with center `median` and
spread `std` (ddof 0), keep the samples inside `center ± sigma * std`.
The test `|x - c| ≤ sigma * std` is taken in the equivalent exact squared
form `(x - c)^2 ≤ sigma^2 * var`. -/
def clipStep (sigma : ℚ) (l : List ℚ) : List ℚ :=
  let c := medianQ l
  let v := nvar l 0
  l.filter (fun x => decide ((x - c) ^ 2 ≤ sigma ^ 2 * v))

/-- Iterated sigma clipping: stop after `maxiters` iterations or as soon as
an iteration clips nothing (astropy's convergence criterion). -/
def clipIter (sigma : ℚ) : ℕ → List ℚ → List ℚ
  | 0, l => l
  | n + 1, l =>
    let l2 := clipStep sigma l
    if l2.length = l.length then l else clipIter sigma n l2

/-- The mean of the sigma-clipped sample list: the first component of
astropy's `sigma_clipped_stats`. -/
def sigmaClipMean (sigma : ℚ) (maxiters : ℕ) (l : List ℚ) : ℚ :=
  meanQ (clipIter sigma maxiters l)

/-- Embedding of `build_superbias` (`build_superbias.py`): stack the bias
frames and reduce the stack per pixel position with the sigma-clipped mean,
`sigma = 3`, `maxiters = 5`.  The output shape is the frame shape; the
function performs no frame-count validation (an empty list yields an empty
image). -/
def build_superbias (stack : List Mat) : Mat :=
  match stack with
  | [] => []
  | m0 :: _ =>
    (List.range (nrows m0)).map (fun i =>
      (List.range (ncols m0)).map (fun j =>
        sigmaClipMean 3 5 (stack.map (fun m => getE m i j))))

/-- Embedding of the sequence-driver loop shared by the `__main__` blocks of
`calc_ron.py` and `calc_gain.py`: for `i in range(len(files) - 1)` append
`est files[i] files[i+1]` to the result list. -/
def driver_pairs {α : Type} [Inhabited α] (est : α → α → ℚ)
    (files : List α) : List ℚ :=
  (List.range (files.length - 1)).map (fun i =>
    est (files.getD i default) (files.getD (i + 1) default))

/-- The aggregate the drivers print at the end:
`(np.median(results), np.mean(results))`. -/
def driver_report {α : Type} [Inhabited α] (est : α → α → ℚ)
    (files : List α) : ℚ × ℚ :=
  (medianQ (driver_pairs est files), meanQ (driver_pairs est files))

/-- A constant `r × c` frame, used for concrete test inputs. -/
def constM (r c : ℕ) (v : ℚ) : Mat := List.replicate r (List.replicate c v)

/-! ## Shape lemmas -/

theorem bidx_lt {n i : ℕ} (h : i < n) : bidx n i = i := by
  unfold bidx
  split
  · omega
  · rfl

theorem ncols_of_hasShape {m : Mat} {R C : ℕ} (h : HasShape m R C)
    (hR : R ≠ 0) : ncols m = C := by
  obtain ⟨h1, h2⟩ := h
  cases m with
  | nil => simp at h1; omega
  | cons r t => simpa [ncols] using h2 r (by simp)

theorem hasShape_matSub {a b : Mat} {R C : ℕ}
    (ha : HasShape a R C) (hb : HasShape b R C) :
    HasShape (matSub a b) R C := by
  constructor
  · simp [matSub, List.length_zipWith, ha.1, hb.1]
  · intro r hr
    rw [List.mem_iff_getElem] at hr
    obtain ⟨i, hi, rfl⟩ := hr
    have hi' : i < a.length ∧ i < b.length := by
      simp only [matSub, List.length_zipWith] at hi
      omega
    simp only [matSub, List.getElem_zipWith, List.length_zipWith]
    rw [ha.2 _ (List.getElem_mem hi'.1), hb.2 _ (List.getElem_mem hi'.2)]
    omega

theorem hasShape_mapRows {m : Mat} {R C : ℕ} (f : ℚ → ℚ)
    (h : HasShape m R C) : HasShape (m.map (List.map f)) R C := by
  constructor
  · simp [h.1]
  · intro r hr
    rw [List.mem_map] at hr
    obtain ⟨r0, hr0, rfl⟩ := hr
    simp [h.2 r0 hr0]

theorem hasShape_smulM {m : Mat} {R C : ℕ} (c : ℚ) (h : HasShape m R C) :
    HasShape (smulM c m) R C := hasShape_mapRows _ h

theorem hasShape_sdivM {m : Mat} {R C : ℕ} (c : ℚ) (h : HasShape m R C) :
    HasShape (sdivM m c) R C := hasShape_mapRows _ h

/-- On two equal-shaped well-formed arrays, numpy broadcast subtraction is
plain elementwise subtraction and cannot fail. -/
theorem bsub_eq_matSub {a b : Mat} {R C : ℕ}
    (ha : HasShape a R C) (hb : HasShape b R C) :
    bsub a b = some (matSub a b) := by
  have hra : nrows a = R := ha.1
  have hrb : nrows b = R := hb.1
  have hcompat : bcompat a b = true := by
    unfold bcompat
    rcases Nat.eq_zero_or_pos R with hR | hR
    · have haa : a = [] := List.length_eq_zero.mp (by rw [ha.1, hR])
      have hbb : b = [] := List.length_eq_zero.mp (by rw [hb.1, hR])
      subst haa; subst hbb; simp
    · have hca : ncols a = C := ncols_of_hasShape ha (by omega)
      have hcb : ncols b = C := ncols_of_hasShape hb (by omega)
      simp [hra, hrb, hca, hcb]
  unfold bsub
  rw [hcompat]
  simp only [if_true]
  congr 1
  apply List.ext_getElem
  · simp [hra, hrb, matSub, List.length_zipWith, ha.1, hb.1]
  · intro i h1 h2
    have hiR : i < R := by simpa [hra, hrb] using h1
    have hRpos : R ≠ 0 := by omega
    have hca : ncols a = C := ncols_of_hasShape ha hRpos
    have hcb : ncols b = C := ncols_of_hasShape hb hRpos
    have hia : i < a.length := by rw [ha.1]; exact hiR
    have hib : i < b.length := by rw [hb.1]; exact hiR
    simp only [List.getElem_map, List.getElem_range, matSub, List.getElem_zipWith]
    apply List.ext_getElem
    · simp [hca, hcb, List.length_zipWith,
        ha.2 _ (List.getElem_mem hia), hb.2 _ (List.getElem_mem hib)]
    · intro j g1 g2
      have hjC : j < C := by simpa [hca, hcb] using g1
      have hja : j < a[i].length := by
        rw [ha.2 _ (List.getElem_mem hia)]; exact hjC
      have hjb : j < b[i].length := by
        rw [hb.2 _ (List.getElem_mem hib)]; exact hjC
      simp only [List.getElem_map, List.getElem_range, List.getElem_zipWith]
      have b1 : bidx (nrows a) i = i := bidx_lt (by rw [hra]; exact hiR)
      have b2 : bidx (nrows b) i = i := bidx_lt (by rw [hrb]; exact hiR)
      have b3 : bidx (ncols a) j = j := bidx_lt (by rw [hca]; exact hjC)
      have b4 : bidx (ncols b) j = j := bidx_lt (by rw [hcb]; exact hjC)
      rw [b1, b2, b3, b4]
      unfold getE
      rw [List.getD_eq_getElem a [] hia, List.getD_eq_getElem b [] hib,
        List.getD_eq_getElem _ 0 hja, List.getD_eq_getElem _ 0 hjb]

/-! ## Window and statistics lemmas -/

theorem mem_winFlat {m : Mat} {w : Window} {x : ℚ} (hx : x ∈ winFlat m w) :
    ∃ r ∈ m, x ∈ r := by
  unfold winFlat slice2 at hx
  rw [List.mem_flatten] at hx
  obtain ⟨r', hr', hxr⟩ := hx
  rw [List.mem_map] at hr'
  obtain ⟨r, hr, rfl⟩ := hr'
  refine ⟨r, List.mem_of_mem_drop (List.mem_of_mem_take hr), ?_⟩
  unfold sliceRow at hxr
  exact List.mem_of_mem_drop (List.mem_of_mem_take hxr)

theorem length_winFlat {m : Mat} {R C : ℕ} {w : Window}
    (h : HasShape m R C) (hw : WinOK w R C) :
    (winFlat m w).length = (w.y1 - w.y0) * (w.x1 - w.x0) := by
  obtain ⟨hx01, hx1, hy01, hy1⟩ := hw
  unfold winFlat
  rw [List.length_flatten]
  have hrows : ∀ n ∈ (slice2 m w).map List.length, n = w.x1 - w.x0 := by
    intro n hn
    rw [List.mem_map] at hn
    obtain ⟨r, hr, rfl⟩ := hn
    unfold slice2 at hr
    rw [List.mem_map] at hr
    obtain ⟨r0, hr0, rfl⟩ := hr
    have hmem : r0 ∈ m := List.mem_of_mem_drop (List.mem_of_mem_take hr0)
    have hlen : r0.length = C := h.2 r0 hmem
    unfold sliceRow
    rw [List.length_take, List.length_drop, hlen]
    omega
  have hnum : (slice2 m w).length = w.y1 - w.y0 := by
    unfold slice2
    rw [List.length_map, List.length_take, List.length_drop, h.1]
    omega
  rw [List.eq_replicate_of_mem hrows, List.sum_replicate, smul_eq_mul,
    List.length_map, hnum]

theorem winFlat_ne_nil {m : Mat} {R C : ℕ} {w : Window}
    (h : HasShape m R C) (hw : WinOK w R C) : winFlat m w ≠ [] := by
  have hlen := length_winFlat h hw
  intro hnil
  rw [hnil] at hlen
  simp at hlen
  obtain ⟨hx01, hx1, hy01, hy1⟩ := hw
  omega

theorem getD_of_all {l : List ℚ} {c : ℚ} (h : ∀ x ∈ l, x = c) {k : ℕ}
    (hk : k < l.length) : l.getD k 0 = c := by
  rw [List.getD_eq_getElem l 0 hk]
  exact h _ (List.getElem_mem hk)

theorem medianQ_of_all {l : List ℚ} {c : ℚ} (h : ∀ x ∈ l, x = c)
    (hne : l ≠ []) : medianQ l = c := by
  simp only [medianQ]
  have hperm := List.perm_insertionSort (· ≤ ·) l
  have hs : ∀ x ∈ l.insertionSort (· ≤ ·), x = c := fun x hx =>
    h x (hperm.mem_iff.mp hx)
  have hlen : (l.insertionSort (· ≤ ·)).length = l.length := hperm.length_eq
  have hpos : 0 < l.length := List.length_pos.mpr hne
  split
  · exact getD_of_all hs (by omega)
  · rw [getD_of_all hs (by omega), getD_of_all hs (by omega)]
    ring

theorem meanQ_of_all {l : List ℚ} {c : ℚ} (h : ∀ x ∈ l, x = c)
    (hne : l ≠ []) : meanQ l = c := by
  have hpos : 0 < l.length := List.length_pos.mpr hne
  unfold meanQ
  conv_lhs => rw [List.eq_replicate_of_mem h]
  rw [List.sum_replicate, List.length_replicate, nsmul_eq_mul]
  have hn : (l.length : ℚ) ≠ 0 := Nat.cast_ne_zero.mpr (by omega)
  field_simp

theorem nvar_of_all {l : List ℚ} {c : ℚ} {d : ℕ} (h : ∀ x ∈ l, x = c) :
    nvar l d = 0 := by
  rcases eq_or_ne l [] with rfl | hne
  · simp [nvar]
  · have hm : meanQ l = c := meanQ_of_all h hne
    unfold nvar
    rw [List.sum_eq_zero, zero_div]
    intro y hy
    rw [List.mem_map] at hy
    obtain ⟨x, hx, rfl⟩ := hy
    rw [h x hx, hm]
    ring

theorem medianQ_of_zero {l : List ℚ} (h : ∀ x ∈ l, x = 0) : medianQ l = 0 := by
  rcases eq_or_ne l [] with rfl | hne
  · simp [medianQ]
  · exact medianQ_of_all h hne

theorem meanQ_of_zero {l : List ℚ} (h : ∀ x ∈ l, x = 0) : meanQ l = 0 := by
  unfold meanQ
  rw [List.sum_eq_zero h, zero_div]

/-! ## Negation invariance (for the symmetry of `calc_ron`) -/

theorem meanQ_neg (l : List ℚ) : meanQ (l.map (fun x => -x)) = -meanQ l := by
  unfold meanQ
  rw [← List.sum_neg, List.length_map, neg_div]

theorem nvar_neg (l : List ℚ) (d : ℕ) : nvar (l.map (fun x => -x)) d = nvar l d := by
  unfold nvar
  rw [meanQ_neg, List.length_map, List.map_map]
  congr 2
  apply List.map_congr_left
  intro x _
  simp only [Function.comp_apply]
  ring

theorem winFlat_map (m : Mat) (w : Window) (f : ℚ → ℚ) :
    winFlat (m.map (List.map f)) w = (winFlat m w).map f := by
  unfold winFlat slice2
  rw [List.map_flatten]
  congr 1
  rw [← List.map_drop, ← List.map_take, List.map_map, List.map_map]
  apply List.map_congr_left
  intro r _
  simp only [Function.comp_apply]
  unfold sliceRow
  rw [List.map_take, List.map_drop]

theorem matSub_antisymm (a b : Mat) :
    matSub b a = (matSub a b).map (List.map (fun x => -x)) := by
  unfold matSub
  apply List.ext_getElem
  · simp [List.length_zipWith, Nat.min_comm]
  · intro i h1 h2
    simp only [List.getElem_map, List.getElem_zipWith]
    apply List.ext_getElem
    · simp [List.length_zipWith, Nat.min_comm]
    · intro j g1 g2
      simp only [List.getElem_map, List.getElem_zipWith]
      ring

theorem matSub_self_zero (m : Mat) : ∀ r ∈ matSub m m, ∀ x ∈ r, x = 0 := by
  intro r hr x hx
  unfold matSub at hr
  rw [List.mem_iff_getElem] at hr
  obtain ⟨i, hi, rfl⟩ := hr
  simp only [List.getElem_zipWith] at hx
  rw [List.mem_iff_getElem] at hx
  obtain ⟨j, hj, rfl⟩ := hx
  simp only [List.getElem_zipWith]
  ring

/-! ## Slice clamping (numpy out-of-range slices) -/

/-- numpy 1-D slicing `r[a:b]` only sees the clamped bounds
`min a n, min b n` on a list of length `n`. -/
theorem slice1_clamp {α : Type} (r : List α) (a b n : ℕ) (h : r.length = n) :
    (r.drop a).take (b - a) = (r.drop (min a n)).take (min b n - min a n) := by
  rcases le_or_lt a n with ha | ha
  · rw [Nat.min_eq_left ha]
    rcases le_or_lt b n with hb | hb
    · rw [Nat.min_eq_left hb]
    · rw [Nat.min_eq_right (le_of_lt hb)]
      rw [List.take_of_length_le (by rw [List.length_drop, h]; omega),
        List.take_of_length_le (by rw [List.length_drop, h])]
  · have e1 : r.drop a = [] := List.drop_eq_nil_of_le (by omega)
    have e2 : r.drop (min a n) = [] := List.drop_eq_nil_of_le (by omega)
    rw [e1, e2]
    simp

/-- The window with its four components clamped to an `R × C` frame, as
numpy slicing does implicitly. -/
def clampW (w : Window) (R C : ℕ) : Window :=
  ⟨min w.x0 C, min w.x1 C, min w.y0 R, min w.y1 R⟩

theorem winFlat_clamp {m : Mat} {R C : ℕ} (h : HasShape m R C) (w : Window) :
    winFlat m (clampW w R C) = winFlat m w := by
  unfold winFlat slice2
  have hrows : (m.drop (min w.y0 R)).take (min w.y1 R - min w.y0 R)
      = (m.drop w.y0).take (w.y1 - w.y0) := (slice1_clamp m w.y0 w.y1 R h.1).symm
  simp only [clampW]
  rw [hrows]
  congr 1
  apply List.map_congr_left
  intro r hr
  have hrC : r.length = C := h.2 r (List.mem_of_mem_drop (List.mem_of_mem_take hr))
  unfold sliceRow
  exact (slice1_clamp r w.x0 w.x1 C hrC).symm

/-- The shape of a successful broadcast subtraction result. -/
theorem hasShape_bsub {a b d : Mat} (h : bsub a b = some d) :
    HasShape d (max (nrows a) (nrows b)) (max (ncols a) (ncols b)) := by
  unfold bsub at h
  split at h
  · injection h with h
    subst h
    constructor
    · simp
    · intro r hr
      rw [List.mem_map] at hr
      obtain ⟨i, _, rfl⟩ := hr
      simp
  · cases h

/-! ## Sigma clipping on outlier-free samples -/

theorem clipStep_of_all {l : List ℚ} {c : ℚ} (σ : ℚ) (h : ∀ x ∈ l, x = c) :
    clipStep σ l = l := by
  simp only [clipStep]
  apply List.filter_eq_self.mpr
  intro x hx
  have hne : l ≠ [] := by rintro rfl; cases hx
  rw [h x hx, medianQ_of_all h hne, nvar_of_all h]
  simp

theorem clipIter_of_all {l : List ℚ} {c : ℚ} (σ : ℚ) (k : ℕ)
    (h : ∀ x ∈ l, x = c) : clipIter σ k l = l := by
  cases k with
  | zero => rfl
  | succ n =>
    simp only [clipIter]
    rw [clipStep_of_all σ h]
    simp

theorem sigmaClipMean_of_all {l : List ℚ} {c : ℚ} (σ : ℚ) (k : ℕ)
    (h : ∀ x ∈ l, x = c) (hne : l ≠ []) : sigmaClipMean σ k l = c := by
  unfold sigmaClipMean
  rw [clipIter_of_all σ k h]
  exact meanQ_of_all h hne

theorem build_superbias_replicate {k : ℕ} {M : Mat} (hk : k ≠ 0)
    (hM : WFmat M) : build_superbias (List.replicate k M) = M := by
  obtain ⟨k, rfl⟩ : ∃ n, k = n + 1 := ⟨k - 1, by omega⟩
  rw [List.replicate_succ]
  unfold build_superbias
  apply List.ext_getElem
  · simp [nrows]
  · intro i h1 h2
    simp only [List.getElem_map, List.getElem_range]
    apply List.ext_getElem
    · simp [hM _ (List.getElem_mem h2)]
    · intro j g1 g2
      simp only [List.getElem_map, List.getElem_range]
      have hmap : (M :: List.replicate k M).map (fun m => getE m i j)
          = List.replicate (k + 1) (getE M i j) := by
        simp [List.map_replicate, List.replicate_succ]
      rw [hmap]
      rw [sigmaClipMean_of_all 3 5 (fun x hx => List.eq_of_mem_replicate hx)
        (by simp)]
      have hi' : i < M.length := h2
      have hj' : j < M[i].length := g2
      unfold getE
      rw [List.getD_eq_getElem M [] hi', List.getD_eq_getElem _ 0 hj']

/-! ## The sequence-driver loop -/

theorem driver_pairs_eq_zip {α : Type} [Inhabited α] (est : α → α → ℚ) :
    ∀ files : List α,
      driver_pairs est files = (files.zip files.tail).map (fun p => est p.1 p.2)
  | [] => by simp [driver_pairs]
  | [a] => by simp [driver_pairs]
  | a :: b :: t => by
    have IH := driver_pairs_eq_zip est (b :: t)
    unfold driver_pairs at IH ⊢
    simp only [List.length_cons, Nat.add_sub_cancel] at IH ⊢
    simp only [List.tail_cons] at IH
    rw [List.range_succ_eq_map]
    simp only [List.map_cons, List.map_map, List.getD_cons_zero,
      List.getD_cons_succ, List.zip_cons_cons, List.tail_cons]
    rw [← IH]
    congr 1

/-! ## Spec-side composite definitions

These re-state, in the claims' own vocabulary, the quantities the claims
assert `calc_gain` / `calc_ron` to compute; the refinement theorems below
relate them to the embedded source functions. -/

/-- Spec-side (claims C1/C3): a light frame with the superbias subtracted
elementwise. -/
def data1Of (img : Image) (sb : Mat) : Mat := matSub img.data sb

/-- Spec-side: the median of a bias-subtracted light frame restricted to
the window (`count1` resp. `count2`). -/
def countWinOf (img : Image) (sb : Mat) (w : Window) : ℚ :=
  medianQ (winFlat (data1Of img sb) w)

/-- Spec-side: `count = (count1 + count2) / 2`. -/
def countOf (i1 i2 : Image) (sb : Mat) (w : Window) : ℚ :=
  (countWinOf i1 sb w + countWinOf i2 sb w) / 2

/-- Spec-side: `diff = data1 - (data2 / count2) * count1` elementwise. -/
def diffOf (i1 i2 : Image) (sb : Mat) (w : Window) : Mat :=
  matSub (data1Of i1 sb)
    (smulM (countWinOf i1 sb w) (sdivM (data1Of i2 sb) (countWinOf i2 sb w)))

/-- Spec-side: `sigma^2`, the square of the Bessel-corrected (ddof 1)
sample standard deviation of `diff` restricted to the window. -/
def sigmaSqOf (i1 i2 : Image) (sb : Mat) (w : Window) : ℚ :=
  nvar (winFlat (diffOf i1 i2 sb w) w) 1

/-- Spec-side: the shot-noise variance `sigma^2 / 2 - ron_adu^2`. -/
def var_shotOf (i1 i2 : Image) (sb : Mat) (ron_adu : ℚ) (w : Window) : ℚ :=
  sigmaSqOf i1 i2 sb w / 2 - ron_adu ^ 2

/-- Spec-side (claim C1's wording): the gain
`count / (sigma^2 / 2 - ron_adu^2)` over ℝ, with `sigma` the real square
root of the sample variance. -/
noncomputable def gainSpec (i1 i2 : Image) (sb : Mat) (ron_adu : ℚ)
    (w : Window) : ℝ :=
  (countOf i1 i2 sb w : ℝ) /
    (Real.sqrt (sigmaSqOf i1 i2 sb w) ^ 2 / 2 - (ron_adu : ℝ) ^ 2)

/-- Spec-side (claim C2's wording): `sigma / sqrt 2`, with `sigma` the
Bessel-corrected sample standard deviation of the full-frame elementwise
difference `frame1 - frame2` restricted to the window. -/
noncomputable def ronSpec (frame1 frame2 : Mat) (w : Window) : ℝ :=
  Real.sqrt (nvar (winFlat (matSub frame1 frame2) w) 1) / Real.sqrt 2

theorem nvar_nonneg (l : List ℚ) (d : ℕ) : 0 ≤ nvar l d := by
  unfold nvar
  apply div_nonneg
  · apply List.sum_nonneg
    intro x hx
    rw [List.mem_map] at hx
    obtain ⟨y, _, rfl⟩ := hx
    positivity
  · positivity

theorem npdivQ_isFinite (a b : ℚ) : (npdivQ a b).isFinite = false ↔ b = 0 := by
  unfold npdivQ
  split
  · rename_i hb
    constructor
    · intro _
      exact hb
    · intro _
      split
      · rfl
      · split <;> rfl
  · rename_i hb
    refine iff_of_false ?_ hb
    simp [FVal.isFinite]

/-! ## Claim theorems: the RON estimator -/

/-- **C2** (confirmed): for two equally-shaped bias frames and a `Window`
within bounds, `calc_ron` returns `sigma / sqrt 2`, where `sigma` is the
Bessel-corrected (ddof 1) sample standard deviation of the full-frame
elementwise difference `frame1 - frame2` restricted to the window. -/
theorem calc_ron_eq_ronSpec {R C : ℕ} (frame1 frame2 : Mat) (w : Window)
    (h1 : HasShape frame1 R C) (h2 : HasShape frame2 R C)
    (hw : WinOK w R C) :
    calc_ron frame1 frame2 w = some (ronSpec frame1 frame2 w) := by
  unfold calc_ron ronSpec
  rw [bsub_eq_matSub h1 h2]
  rfl

/-- Witness for `calc_ron_eq_ronSpec` at a concrete 2×2 input. -/
theorem calc_ron_eq_ronSpec_witness :
    (HasShape [[1, 2], [3, 4]] 2 2 ∧ HasShape [[0, 1], [5, 5]] 2 2 ∧
      WinOK ⟨0, 2, 0, 2⟩ 2 2) ∧
    calc_ron [[1, 2], [3, 4]] [[0, 1], [5, 5]] ⟨0, 2, 0, 2⟩
      = some (ronSpec [[1, 2], [3, 4]] [[0, 1], [5, 5]] ⟨0, 2, 0, 2⟩) :=
  ⟨⟨by decide, by decide, by decide⟩,
    calc_ron_eq_ronSpec (R := 2) (C := 2) _ _ _ (by decide) (by decide)
      (by decide)⟩

/-- `calc_ron_ieee` agrees with the exact-real `calc_ron` (up to the
`RVal.fin` embedding) whenever the window provides at least two samples. -/
theorem calc_ron_ieee_agrees {R C : ℕ} (d1 d2 : Mat) (w : Window)
    (h1 : HasShape d1 R C) (h2 : HasShape d2 R C) (hw : WinOK w R C)
    (hn : 2 ≤ (w.y1 - w.y0) * (w.x1 - w.x0)) :
    calc_ron_ieee d1 d2 w = (calc_ron d1 d2 w).map RVal.fin := by
  unfold calc_ron_ieee calc_ron
  rw [bsub_eq_matSub h1 h2, Option.map_some', Option.map_some',
    Option.map_some']
  rw [if_neg (by
    rw [length_winFlat (hasShape_matSub h1 h2) hw]
    omega)]

/-- **C7** (corrected): on two identical bias frames and a valid window of
at least two pixels, the program returns `ron_adu = 0` and zero median and
mean diagnostics (the difference array is all zeros); at a valid
single-pixel window `np.std(_, ddof=1)` of the one-sample slice is
`0.0/0.0 = nan` and the program returns nan instead. -/
theorem calc_ron_identical_frames {R C : ℕ} (d : Mat) (w : Window)
    (h : HasShape d R C) (hw : WinOK w R C)
    (hn : 2 ≤ (w.y1 - w.y0) * (w.x1 - w.x0)) :
    calc_ron_ieee d d w = some (RVal.fin 0) ∧ ron_median d d w = some 0 ∧
      ron_mean d d w = some 0 := by
  have hb : bsub d d = some (matSub d d) := bsub_eq_matSub h h
  have hz : ∀ x ∈ winFlat (matSub d d) w, x = 0 := by
    intro x hx
    obtain ⟨r, hr, hxr⟩ := mem_winFlat hx
    exact matSub_self_zero d r hr x hxr
  refine ⟨?_, ?_, ?_⟩
  · unfold calc_ron_ieee
    rw [hb, Option.map_some']
    rw [if_neg (by
      rw [length_winFlat (hasShape_matSub h h) hw]
      omega)]
    rw [nvar_of_all hz, Rat.cast_zero, Real.sqrt_zero, zero_div]
  · unfold ron_median
    rw [hb, Option.map_some', medianQ_of_zero hz]
  · unfold ron_mean
    rw [hb, Option.map_some', meanQ_of_zero hz]

/-- Witness for `calc_ron_identical_frames` at a concrete 2×2 input with
a full (4-pixel) window. -/
theorem calc_ron_identical_frames_witness :
    (HasShape [[3, 1], [2, 7]] 2 2 ∧ WinOK ⟨0, 2, 0, 2⟩ 2 2 ∧
      2 ≤ (2 - 0) * (2 - 0)) ∧
    (calc_ron_ieee [[3, 1], [2, 7]] [[3, 1], [2, 7]] ⟨0, 2, 0, 2⟩
        = some (RVal.fin 0) ∧
      ron_median [[3, 1], [2, 7]] [[3, 1], [2, 7]] ⟨0, 2, 0, 2⟩ = some 0 ∧
      ron_mean [[3, 1], [2, 7]] [[3, 1], [2, 7]] ⟨0, 2, 0, 2⟩ = some 0) :=
  ⟨⟨by decide, by decide, by decide⟩,
    calc_ron_identical_frames (R := 2) (C := 2) _ _ (by decide) (by decide)
      (by decide)⟩

/-- **C7** counterexample: the claim quantifies over every valid window,
and `WinOK ⟨0,1,0,1⟩ 2 2` holds — yet at that single-pixel window the
difference slice has one sample, `np.std(_, ddof=1)` is `0.0/0.0 = nan`,
and the program returns nan, not `0`. -/
theorem calc_ron_identical_single_pixel_nan :
    WinOK ⟨0, 1, 0, 1⟩ 2 2 ∧
    calc_ron_ieee [[1, 2], [3, 4]] [[1, 2], [3, 4]] ⟨0, 1, 0, 1⟩
      = some RVal.nan := by
  refine ⟨by decide, ?_⟩
  unfold calc_ron_ieee
  rw [show bsub [[1, 2], [3, 4]] [[1, 2], [3, 4]]
      = some [[0, 0], [0, 0]] from by with_unfolding_all decide]
  rw [Option.map_some', if_pos (by decide)]

/-- **C10** (confirmed): swapping the two equally-shaped bias frames leaves
the RON estimate unchanged — negating the difference array does not change
its sample standard deviation. -/
theorem calc_ron_symm {R C : ℕ} (frame1 frame2 : Mat) (w : Window)
    (h1 : HasShape frame1 R C) (h2 : HasShape frame2 R C)
    (hw : WinOK w R C) :
    calc_ron frame1 frame2 w = calc_ron frame2 frame1 w := by
  unfold calc_ron
  rw [bsub_eq_matSub h1 h2, bsub_eq_matSub h2 h1, Option.map_some',
    Option.map_some', matSub_antisymm frame1 frame2, winFlat_map, nvar_neg]

/-- Witness for `calc_ron_symm` at a concrete 2×2 input. -/
theorem calc_ron_symm_witness :
    (HasShape [[1, 2], [3, 4]] 2 2 ∧ HasShape [[9, 0], [2, 6]] 2 2 ∧
      WinOK ⟨0, 2, 0, 2⟩ 2 2) ∧
    calc_ron [[1, 2], [3, 4]] [[9, 0], [2, 6]] ⟨0, 2, 0, 2⟩
      = calc_ron [[9, 0], [2, 6]] [[1, 2], [3, 4]] ⟨0, 2, 0, 2⟩ :=
  ⟨⟨by decide, by decide, by decide⟩,
    calc_ron_symm (R := 2) (C := 2) _ _ _ (by decide) (by decide)
      (by decide)⟩

/-- **C4** (corrected): `calc_ron` performs no validation of its own.  It
fails exactly when the two frames are not numpy broadcast-compatible (the
elementwise subtraction raises); equal-shaped frames always produce a
value, and a window exceeding the frame bounds is silently clamped by
slicing, so the result equals the one for the clamped window. -/
theorem calc_ron_no_validation (d1 d2 : Mat) (w : Window) :
    ((calc_ron d1 d2 w).isSome = true ↔ bcompat d1 d2 = true) ∧
    calc_ron d1 d2 w = calc_ron d1 d2
      (clampW w (max (nrows d1) (nrows d2)) (max (ncols d1) (ncols d2))) := by
  constructor
  · unfold calc_ron bsub
    cases hcb : bcompat d1 d2 <;> simp [hcb]
  · unfold calc_ron
    cases hb : bsub d1 d2 with
    | none => rfl
    | some dd =>
      rw [Option.map_some', Option.map_some',
        winFlat_clamp (hasShape_bsub hb) w]

/-- **C4** counterexample: with equal 2×2 shapes and the out-of-bounds
window `(0,5,0,5)`, `calc_ron` returns a value (here `0`: the frames
differ by a constant) instead of failing; and with the differing but
broadcastable shapes 1×2 and 2×2 it also returns a value. -/
theorem calc_ron_no_validation_counterexample :
    calc_ron [[1, 2], [3, 4]] [[5, 6], [7, 8]] ⟨0, 5, 0, 5⟩ = some 0 ∧
    (calc_ron [[1, 2]] [[5, 6], [7, 8]] ⟨0, 2, 0, 2⟩).isSome = true := by
  constructor
  · unfold calc_ron
    rw [show bsub [[1, 2], [3, 4]] [[5, 6], [7, 8]]
        = some [[-4, -4], [-4, -4]] from by with_unfolding_all decide]
    rw [Option.map_some',
      show nvar (winFlat [[-4, -4], [-4, -4]] ⟨0, 5, 0, 5⟩) 1 = 0 from by
        with_unfolding_all decide,
      Rat.cast_zero, Real.sqrt_zero, zero_div]
  · unfold calc_ron
    rw [show bsub [[1, 2]] [[5, 6], [7, 8]]
        = some [[-4, -4], [-6, -6]] from by with_unfolding_all decide]
    rfl

/-! ## Claim theorems: the gain estimator -/

/-- **C1** (confirmed): for equally-shaped light frames and superbias, a
window within bounds, nonnegative `ron_adu`, and inputs on which every
constituent of the claim's formula denotes — at least two window pixels
(a one-sample Bessel-corrected standard deviation does not exist; numpy
returns nan there), `count2 ≠ 0` (the claim's `data2 / count2` divides by
it), and a nonzero shot-noise variance — `calc_gain` returns
`count / (sigma^2 / 2 - ron_adu^2)` with `count1`, `count2`, `count`,
`diff` and `sigma` exactly as the claim describes (`countWinOf`,
`countOf`, `diffOf`, and the square root of `sigmaSqOf`). -/
theorem calc_gain_formula {R C : ℕ} (i1 i2 : Image) (sb : Mat)
    (ron_adu : ℚ) (w : Window) (h1 : HasShape i1.data R C)
    (h2 : HasShape i2.data R C) (hsb : HasShape sb R C)
    (hr : 0 ≤ ron_adu) (hw : WinOK w R C)
    (hn : 2 ≤ (w.y1 - w.y0) * (w.x1 - w.x0))
    (hc2 : countWinOf i2 sb w ≠ 0)
    (hv : var_shotOf i1 i2 sb ron_adu w ≠ 0) :
    calc_gain i1 i2 sb ron_adu w =
      some (FVal.fin (countOf i1 i2 sb w / var_shotOf i1 i2 sb ron_adu w)) ∧
    ((countOf i1 i2 sb w / var_shotOf i1 i2 sb ron_adu w : ℚ) : ℝ) =
      gainSpec i1 i2 sb ron_adu w := by
  have hd1 : bsub i1.data sb = some (data1Of i1 sb) := bsub_eq_matSub h1 hsb
  have hd2 : bsub i2.data sb = some (data1Of i2 sb) := bsub_eq_matSub h2 hsb
  have hs1 : HasShape (data1Of i1 sb) R C := hasShape_matSub h1 hsb
  have hs2 : HasShape (data1Of i2 sb) R C := hasShape_matSub h2 hsb
  have hdd : bsub (data1Of i1 sb)
      (smulM (medianQ (winFlat (data1Of i1 sb) w))
        (sdivM (data1Of i2 sb) (medianQ (winFlat (data1Of i2 sb) w))))
      = some (diffOf i1 i2 sb w) :=
    bsub_eq_matSub hs1 (hasShape_smulM _ (hasShape_sdivM _ hs2))
  have hsd : HasShape (diffOf i1 i2 sb w) R C :=
    hasShape_matSub hs1 (hasShape_smulM _ (hasShape_sdivM _ hs2))
  constructor
  · unfold calc_gain preprocess_light
    simp only [hd1, hd2]
    simp only [hdd]
    rw [if_neg (by
      push_neg
      refine ⟨winFlat_ne_nil hs1 hw, winFlat_ne_nil hs2 hw, hc2, ?_⟩
      rw [length_winFlat hsd hw]
      omega)]
    show some (npdivQ (countOf i1 i2 sb w) (var_shotOf i1 i2 sb ron_adu w))
      = some (FVal.fin (countOf i1 i2 sb w / var_shotOf i1 i2 sb ron_adu w))
    unfold npdivQ
    rw [if_neg hv]
  · unfold gainSpec
    rw [Real.sq_sqrt
      (by exact_mod_cast (nvar_nonneg _ 1 : 0 ≤ sigmaSqOf i1 i2 sb w))]
    rw [Rat.cast_div]
    congr 1
    unfold var_shotOf
    push_cast
    ring

/-- Witness for `calc_gain_formula` at a concrete 2×2 input. -/
theorem calc_gain_formula_witness :
    (HasShape (Image.data ⟨[[10, 12], [11, 13]], 7⟩) 2 2 ∧
      HasShape (Image.data ⟨[[9, 11], [10, 12]], 8⟩) 2 2 ∧
      HasShape [[1, 1], [1, 1]] 2 2 ∧ (0 : ℚ) ≤ 0 ∧ WinOK ⟨0, 2, 0, 2⟩ 2 2 ∧
      2 ≤ (2 - 0) * (2 - 0) ∧
      countWinOf ⟨[[9, 11], [10, 12]], 8⟩ [[1, 1], [1, 1]] ⟨0, 2, 0, 2⟩ ≠ 0 ∧
      var_shotOf ⟨[[10, 12], [11, 13]], 7⟩ ⟨[[9, 11], [10, 12]], 8⟩
        [[1, 1], [1, 1]] 0 ⟨0, 2, 0, 2⟩ ≠ 0) ∧
    (calc_gain ⟨[[10, 12], [11, 13]], 7⟩ ⟨[[9, 11], [10, 12]], 8⟩
        [[1, 1], [1, 1]] 0 ⟨0, 2, 0, 2⟩ =
      some (FVal.fin
        (countOf ⟨[[10, 12], [11, 13]], 7⟩ ⟨[[9, 11], [10, 12]], 8⟩
            [[1, 1], [1, 1]] ⟨0, 2, 0, 2⟩ /
          var_shotOf ⟨[[10, 12], [11, 13]], 7⟩ ⟨[[9, 11], [10, 12]], 8⟩
            [[1, 1], [1, 1]] 0 ⟨0, 2, 0, 2⟩)) ∧
    ((countOf ⟨[[10, 12], [11, 13]], 7⟩ ⟨[[9, 11], [10, 12]], 8⟩
          [[1, 1], [1, 1]] ⟨0, 2, 0, 2⟩ /
        var_shotOf ⟨[[10, 12], [11, 13]], 7⟩ ⟨[[9, 11], [10, 12]], 8⟩
          [[1, 1], [1, 1]] 0 ⟨0, 2, 0, 2⟩ : ℚ) : ℝ) =
      gainSpec ⟨[[10, 12], [11, 13]], 7⟩ ⟨[[9, 11], [10, 12]], 8⟩
        [[1, 1], [1, 1]] 0 ⟨0, 2, 0, 2⟩) :=
  ⟨⟨by decide, by decide, by decide, by decide, by decide, by decide,
      by with_unfolding_all decide, by with_unfolding_all decide⟩,
    calc_gain_formula (R := 2) (C := 2) _ _ _ _ _ (by decide) (by decide)
      (by decide) (by decide) (by decide) (by decide)
      (by with_unfolding_all decide) (by with_unfolding_all decide)⟩

/-- **C9** (confirmed): the gain is invariant under changing either
frame's `EXPTIME` metadata — `preprocess_light` reads it, but it never
enters the computation. -/
theorem calc_gain_exptime_noninterference (d1 d2 sb : Mat)
    (t1 t2 t1' t2' ron_adu : ℚ) (w : Window) :
    calc_gain ⟨d1, t1⟩ ⟨d2, t2⟩ sb ron_adu w
      = calc_gain ⟨d1, t1'⟩ ⟨d2, t2'⟩ sb ron_adu w := rfl

/-- **C3** (corrected): on equally-shaped inputs with a valid window of at
least two pixels and `count2 ≠ 0` (elsewhere the float pipeline itself
degenerates to nan), `calc_gain` always returns a value — the numpy float
division `count / var_shot` — and that value is non-finite (`inf`, `-inf`
or `nan`) precisely when `var_shot` is exactly zero; a strictly negative
`var_shot` yields a finite (negative for positive count) gain instead. -/
theorem calc_gain_nonfinite_iff {R C : ℕ} (i1 i2 : Image) (sb : Mat)
    (ron_adu : ℚ) (w : Window) (h1 : HasShape i1.data R C)
    (h2 : HasShape i2.data R C) (hsb : HasShape sb R C)
    (hw : WinOK w R C) (hn : 2 ≤ (w.y1 - w.y0) * (w.x1 - w.x0))
    (hc2 : countWinOf i2 sb w ≠ 0) :
    calc_gain i1 i2 sb ron_adu w =
      some (npdivQ (countOf i1 i2 sb w) (var_shotOf i1 i2 sb ron_adu w)) ∧
    ((npdivQ (countOf i1 i2 sb w)
        (var_shotOf i1 i2 sb ron_adu w)).isFinite = false
      ↔ var_shotOf i1 i2 sb ron_adu w = 0) := by
  have hd1 : bsub i1.data sb = some (data1Of i1 sb) := bsub_eq_matSub h1 hsb
  have hd2 : bsub i2.data sb = some (data1Of i2 sb) := bsub_eq_matSub h2 hsb
  have hs1 : HasShape (data1Of i1 sb) R C := hasShape_matSub h1 hsb
  have hs2 : HasShape (data1Of i2 sb) R C := hasShape_matSub h2 hsb
  have hdd : bsub (data1Of i1 sb)
      (smulM (medianQ (winFlat (data1Of i1 sb) w))
        (sdivM (data1Of i2 sb) (medianQ (winFlat (data1Of i2 sb) w))))
      = some (diffOf i1 i2 sb w) :=
    bsub_eq_matSub hs1 (hasShape_smulM _ (hasShape_sdivM _ hs2))
  have hsd : HasShape (diffOf i1 i2 sb w) R C :=
    hasShape_matSub hs1 (hasShape_smulM _ (hasShape_sdivM _ hs2))
  refine ⟨?_, npdivQ_isFinite _ _⟩
  unfold calc_gain preprocess_light
  simp only [hd1, hd2]
  simp only [hdd]
  rw [if_neg (by
    push_neg
    refine ⟨winFlat_ne_nil hs1 hw, winFlat_ne_nil hs2 hw, hc2, ?_⟩
    rw [length_winFlat hsd hw]
    omega)]
  rfl

/-- Witness for `calc_gain_nonfinite_iff`, instantiated at the spec's
degenerate scenario: zero superbias, two constant-500 10×10 light frames,
`ron_adu = 0`, full window — the shot-noise variance is zero and the
returned gain is `+inf` (count positive), surfaced, not raised. -/
theorem calc_gain_nonfinite_iff_witness :
    (HasShape (Image.data ⟨constM 10 10 500, 1⟩) 10 10 ∧
      HasShape (Image.data ⟨constM 10 10 500, 2⟩) 10 10 ∧
      HasShape (constM 10 10 0) 10 10 ∧ WinOK ⟨0, 10, 0, 10⟩ 10 10 ∧
      2 ≤ (10 - 0) * (10 - 0) ∧
      countWinOf ⟨constM 10 10 500, 2⟩ (constM 10 10 0) ⟨0, 10, 0, 10⟩ ≠ 0) ∧
    calc_gain ⟨constM 10 10 500, 1⟩ ⟨constM 10 10 500, 2⟩ (constM 10 10 0)
      0 ⟨0, 10, 0, 10⟩ = some FVal.inf := by
  refine ⟨⟨by decide, by decide, by decide, by decide, by decide,
      by with_unfolding_all decide⟩, ?_⟩
  have h := calc_gain_nonfinite_iff (R := 10) (C := 10)
    ⟨constM 10 10 500, 1⟩ ⟨constM 10 10 500, 2⟩ (constM 10 10 0) 0
    ⟨0, 10, 0, 10⟩ (by decide) (by decide) (by decide) (by decide)
    (by decide) (by with_unfolding_all decide)
  rw [h.1]
  congr 1
  with_unfolding_all decide

/-- **C3** counterexample: equal constant-500 light frames with zero
superbias and `ron_adu = 1` give `var_shot = -1 < 0` (zero *or negative*
in the claim's wording), yet the returned gain is the *finite* value
`-500` — not NaN or Inf as the claim states. -/
theorem calc_gain_negative_var_shot_finite :
    var_shotOf ⟨constM 2 2 500, 1⟩ ⟨constM 2 2 500, 1⟩ (constM 2 2 0) 1
      ⟨0, 2, 0, 2⟩ < 0 ∧
    calc_gain ⟨constM 2 2 500, 1⟩ ⟨constM 2 2 500, 1⟩ (constM 2 2 0) 1
      ⟨0, 2, 0, 2⟩ = some (FVal.fin (-500)) ∧
    (FVal.fin (-500)).isFinite = true :=
  ⟨by with_unfolding_all decide, by with_unfolding_all decide, rfl⟩

/-! ## Claim theorems: superbias builder and sequence driver -/

/-- **C5** (corrected): `build_superbias` performs no frame-count
validation.  Far from failing with an InsufficientData error, a single
bias frame is silently reduced to a superbias equal to that frame (the
sigma-clipped mean of a one-sample stack). -/
theorem build_superbias_single (M : Mat) (hM : WFmat M) :
    build_superbias [M] = M := by
  have h := build_superbias_replicate (k := 1) (by omega) hM
  simpa using h

/-- Witness for `build_superbias_single` at a concrete 2×2 frame. -/
theorem build_superbias_single_witness :
    WFmat [[2, 3], [4, 5]] ∧
    build_superbias [[[2, 3], [4, 5]]] = [[2, 3], [4, 5]] :=
  ⟨by decide, build_superbias_single _ (by decide)⟩

/-- **C5** counterexample: a single one-pixel bias frame is silently
turned into a superbias (that same frame) — no InsufficientData error
exists in the code. -/
theorem build_superbias_single_counterexample :
    build_superbias [[[5]]] = [[5]] := by
  with_unfolding_all decide

/-- **C8** (confirmed): on a stack of identical well-formed frames (every
pixel position carries one constant across the stack), the sigma-clipped
mean (`sigma = 3`, `maxiters = 5`) reproduces the frame exactly; in
particular five identical constant frames do. -/
theorem build_superbias_identical_frames {k : ℕ} {M : Mat} (hk : 1 ≤ k)
    (hM : WFmat M) : build_superbias (List.replicate k M) = M :=
  build_superbias_replicate (by omega) hM

/-- Witness for `build_superbias_identical_frames`: five identical
constant 2×2 frames. -/
theorem build_superbias_identical_frames_witness :
    (1 ≤ 5 ∧ WFmat (constM 2 2 7)) ∧
    build_superbias (List.replicate 5 (constM 2 2 7)) = constM 2 2 7 :=
  ⟨⟨by decide, by decide⟩,
    build_superbias_identical_frames (by decide) (by decide)⟩

/-- **C6** (confirmed): for an ordered list of at least two frames, the
driver loop produces exactly the per-pair estimates over consecutive pairs
`(i, i+1)`, in order — equivalently, the map of the estimator over
`files.zip files.tail` — a list of length `n - 1`, and the report is the
median and mean of that list.  A 3-frame list hence yields exactly 2
estimates. -/
theorem driver_consecutive_pairs {α : Type} [Inhabited α]
    (est : α → α → ℚ) (files : List α) (h : 2 ≤ files.length) :
    driver_pairs est files
      = (files.zip files.tail).map (fun p => est p.1 p.2) ∧
    (driver_pairs est files).length = files.length - 1 ∧
    driver_report est files
      = (medianQ (driver_pairs est files), meanQ (driver_pairs est files)) := by
  refine ⟨driver_pairs_eq_zip est files, ?_, rfl⟩
  unfold driver_pairs
  simp

/-- Witness for `driver_consecutive_pairs` on a 3-element list: exactly
two pairwise estimates. -/
theorem driver_consecutive_pairs_witness :
    2 ≤ ([(1 : ℚ), 2, 4]).length ∧
    (driver_pairs (fun a b : ℚ => a - b) [(1 : ℚ), 2, 4]
        = (([(1 : ℚ), 2, 4]).zip ([(1 : ℚ), 2, 4]).tail).map
            (fun p => p.1 - p.2) ∧
      (driver_pairs (fun a b : ℚ => a - b) [(1 : ℚ), 2, 4]).length
        = ([(1 : ℚ), 2, 4]).length - 1 ∧
      driver_report (fun a b : ℚ => a - b) [(1 : ℚ), 2, 4]
        = (medianQ (driver_pairs (fun a b : ℚ => a - b) [(1 : ℚ), 2, 4]),
            meanQ (driver_pairs (fun a b : ℚ => a - b) [(1 : ℚ), 2, 4]))) :=
  ⟨by decide, driver_consecutive_pairs _ _ (by decide)⟩
